import Mathlib

/-!
Verification of the range-specification compiler and validator of cutplace
(src/cutplace/ranges.py).  The module compiles a small textual grammar such as
"1...40", "-5...-1, 10, 20..." or "" into a list of interval items
(pairs of optional integers) and validates integer values against them.

The embedding below follows the Python source line by line:
pure functions become Lean functions, the token loop of Range.__init__
becomes a fold over the token list, exceptions become Except values.
Machine text is List Char / String; integers are unbounded in Python and
therefore Int here.  The lexer (Python's tokenize module, external to the
repository) and the symbolic-name table (cutplace.errors, whose source is
not part of the repository snapshot) are modelled from the specification,
as marked on their definitions.
-/

namespace Cutplace

/-- Single-quote character, named so that quote characters never have to
appear as character literals. -/
def squote : Char := Char.ofNat 39

/-- Double-quote character. -/
def dquote : Char := Char.ofNat 34

/-- Python truthiness of text.strip(): a string is blank when every
character is whitespace (ranges.py line 57). -/
def isBlank (s : String) : Bool := s.data.all Char.isWhitespace

/-- One interval item: (lower, upper), either side possibly unbounded
(ranges.py docstring of Range.items, lines 179-185). -/
abbrev Item := Option Int × Option Int

/-- The compiled range: original description text (or none) and the compiled
item list (or none for the unrestricted range), as stored by Range.__init__
(ranges.py lines 62-68). -/
structure Range where
  description : Option String
  items : Option (List Item)
  deriving DecidableEq

/-- The distinct errors.InterfaceError messages raised during compilation
(ranges.py lines 52, 93, 102, 106, 117, 122, 124, 132, 136, 144, 155, 165). -/
inductive RangeError where
  | blankDefault
  | notAnInteger (tokenText : String)
  | unknownSymbolicName (tokenText : String)
  | textNotSingleChar (tokenText : String)
  | atMostLowerAndUpper (tokenText : String)
  | numberMustBeFollowedByEllipsis (tokenText : String)
  | hyphenMustBeFollowedByNumber (tokenText : String)
  | hyphenAtEnd
  | ellipsisUnaccompanied
  | lowerGreaterThanUpper (lower upper : Int)
  | unrecognizedToken (tokenText : String)
  | itemsOverlap (firstRendering secondRendering : String)
  deriving DecidableEq

/-- Whether an error is one of the two hyphen messages of ranges.py
lines 124 and 136 ("hyphen (-) must be followed by number ..."). -/
def RangeError.isHyphenError : RangeError → Bool
  | .hyphenMustBeFollowedByNumber _ => true
  | .hyphenAtEnd => true
  | _ => false

/-- The errors.RangeValueError raised by Range.validate (ranges.py
lines 287-288): it carries the name, the offending value, the canonical
rendering of the whole range (the %r interpolation of self) and the
location. -/
structure RangeViolation where
  name : String
  value : Int
  rendering : String
  location : Option String
  deriving DecidableEq

/-- Token of the range grammar.  Modelled from the spec: the source hands
lexing to Python's tokenize module (ranges.py line 71), which is outside the
repository; the spec (section 4.1) fixes the token kinds as numbers, quoted
single characters, bare names and punctuation, terminated by an end marker,
which is rendered here as the end of the token list.  The token carries its
source text exactly as the Python token's string value does. -/
inductive Tok where
  | num (s : String)
  | name (s : String)
  | str (s : String)
  | op (s : String)
  deriving DecidableEq

/-- Characters of a bare name after the first (Python identifier characters). -/
def isNameChar (c : Char) : Bool := c.isAlphanum || c = '_'

/-- Hexadecimal digit characters (accepted by Python int(s, 16)). -/
def isHexDigitChar (c : Char) : Bool :=
  c.isDigit || (('a' ≤ c) && (c ≤ 'f')) || (('A' ≤ c) && (c ≤ 'F'))

/-- Take the longest run of characters satisfying p, returning it and the rest. -/
def spanP (p : Char → Bool) : List Char → List Char × List Char
  | [] => ([], [])
  | c :: cs =>
    if p c then
      let r := spanP p cs
      (c :: r.1, r.2)
    else ([], c :: cs)

/-- Scan up to the closing quote q; returns the enclosed characters and the
rest of the input, or none when the quote is never closed. -/
def scanQuoted (q : Char) : List Char → Option (List Char × List Char)
  | [] => none
  | c :: cs =>
    if c = q then some ([], cs)
    else
      match scanQuoted q cs with
      | some r => some (c :: r.1, r.2)
      | none => none

/-- Lex one number token whose first character c is a digit: either a 0x/0X
hexadecimal literal or a run of decimal digits, as Python tokenize produces. -/
def lexNumber (c : Char) (cs : List Char) : Tok × List Char :=
  match cs with
  | m :: cs2 =>
    if c = '0' && (m = 'x' || m = 'X') then
      let r := spanP isHexDigitChar cs2
      (Tok.num (String.mk (c :: m :: r.1)), r.2)
    else
      let r := spanP Char.isDigit cs
      (Tok.num (String.mk (c :: r.1)), r.2)
  | [] => (Tok.num (String.mk [c]), [])

/-- Lex one token starting at character c (rest of input cs): whitespace is
skipped, digits start numbers, letters and underscore start names, quotes
start single-line string literals (an unterminated quote is an error token,
surfaced as a punctuation token that the compiler rejects), and every other
character is a punctuation token of its own text, as Python tokenize yields
OP or ERRORTOKEN entries whose value the compiler inspects. -/
def lexOne (c : Char) (cs : List Char) : List Tok × List Char :=
  if c.isWhitespace then ([], cs)
  else if c.isDigit then
    let r := lexNumber c cs
    ([r.1], r.2)
  else if c.isAlpha || c = '_' then
    let r := spanP isNameChar cs
    ([Tok.name (String.mk (c :: r.1))], r.2)
  else if c = squote || c = dquote then
    match scanQuoted c cs with
    | some r => ([Tok.str (String.mk (c :: (r.1 ++ [c])))], r.2)
    | none => ([Tok.op (String.mk [c])], cs)
  else ([Tok.op (String.mk [c])], cs)

/-- Fuel-driven token scan; the fuel only serves structural recursion and any
fuel above the input length yields the same tokens. -/
def tokenizeAux : Nat → List Char → List Tok
  | 0, _ => []
  | _ + 1, [] => []
  | fuel + 1, c :: cs =>
    let r := lexOne c cs
    r.1 ++ tokenizeAux fuel r.2

/-- Token sequence of a range text (the end-of-input marker is the end of
the list). -/
def tokenizeRange (l : List Char) : List Tok := tokenizeAux (l.length + 1) l

/-- Modelled from the spec: the symbolic-name table errors.NAME_TO_ASCII_CODE_MAP
lives in cutplace.errors, which is not part of the repository snapshot.  The
spec (sections 4.2 and 6) describes it as an externally owned mapping from
lower-cased control-character mnemonics to their codes, with "cr" mapping
to 13 among the testable properties (section 8). -/
def NAME_TO_ASCII_CODE_MAP : List (String × Nat) :=
  [(("cr"), 13), (("ff"), 12), (("lf"), 10), (("tab"), 9), (("vt"), 11)]

/-- ASCII lower-casing of one character (Python str.lower on the name tokens
that can appear here). -/
def lowerChar (c : Char) : Char :=
  if ('A' ≤ c) && (c ≤ 'Z') then Char.ofNat (c.toNat + 32) else c

/-- ASCII lower-casing of a string (ranges.py line 99: next_value.lower()). -/
def lowerString (s : String) : String := String.mk (s.data.map lowerChar)

/-- Value of one digit character in the given base, as Python int(s, base)
accepts it, or none when the character is no digit of that base. -/
def parseDigit (base : Nat) (c : Char) : Option Nat :=
  let v : Option Nat :=
    if c.isDigit then some (c.toNat - 48)
    else if ('a' ≤ c) && (c ≤ 'z') then some (c.toNat - 87)
    else if ('A' ≤ c) && (c ≤ 'Z') then some (c.toNat - 55)
    else none
  match v with
  | some d => if d < base then some d else none
  | none => none

/-- Accumulating digit parse (Python int(s, base) on the token text). -/
def parseNatAux (base : Nat) : List Char → Nat → Option Nat
  | [], acc => some acc
  | c :: cs, acc =>
    match parseDigit base c with
    | some d => parseNatAux base cs (acc * base + d)
    | none => none

/-- Python int(s, base): none models the ValueError on empty or malformed
digits (ranges.py lines 91-93). -/
def parseNatBase (base : Nat) (l : List Char) : Option Nat :=
  match l with
  | [] => none
  | _ => parseNatAux base l 0

/-- Numeric value of a NUMBER token (ranges.py lines 84-91): a 0x/0X prefix
selects base 16 after stripping the prefix, otherwise base 10. -/
def parseNumberToken (s : String) : Option Nat :=
  match s.data with
  | c0 :: c1 :: rest =>
    if c0 = '0' && (c1 = 'x' || c1 = 'X') then parseNatBase 16 rest
    else parseNatBase 10 s.data
  | _ => parseNatBase 10 s.data

/-- The four accumulator variables of the per-group parse loop
(ranges.py lines 74-77). -/
structure GroupState where
  lower : Option Int
  upper : Option Int
  ellipsisFound : Bool
  afterHyphen : Bool
  deriving DecidableEq

/-- All accumulators reset at the start of each comma-separated group
(ranges.py lines 74-77). -/
def initGroupState : GroupState := ⟨none, none, false, false⟩

/-- Placing an obtained value into the group state (ranges.py lines 113-122):
after an ellipsis it fills upper (at most one), otherwise lower (at most one). -/
def placeValue (st : GroupState) (v : Int) (tokText : String) :
    Except RangeError GroupState :=
  if st.ellipsisFound then
    match st.upper with
    | none => .ok { st with upper := some v }
    | some _ => .error (.atMostLowerAndUpper tokText)
  else
    match st.lower with
    | none => .ok { st with lower := some v }
    | some _ => .error (.numberMustBeFollowedByEllipsis tokText)

/-- One step of the token loop of Range.__init__ (ranges.py lines 79-133).
NUMBER, NAME and STRING tokens produce a value: a number is negated when the
hyphen flag is set (which also clears the flag); a name resolves through the
symbolic-name table; a string must be exactly three characters (quote,
character, quote) and yields the code point of the enclosed character.  Any
other token first trips the pending-hyphen check, then may be the hyphen, a
colon or the ellipsis character, and is otherwise rejected. -/
def processToken (st : GroupState) (t : Tok) : Except RangeError GroupState :=
  match t with
  | .num s =>
    match parseNumberToken s with
    | none => .error (.notAnInteger s)
    | some n =>
      let v : Int := if st.afterHyphen then -(n : Int) else (n : Int)
      placeValue { st with afterHyphen := false } v s
  | .name s =>
    match NAME_TO_ASCII_CODE_MAP.lookup (lowerString s) with
    | none => .error (.unknownSymbolicName s)
    | some n => placeValue st (n : Int) s
  | .str s =>
    match s.data with
    | [_, c, _] => placeValue st ((c.toNat : Int)) s
    | _ => .error (.textNotSingleChar s)
  | .op s =>
    if st.afterHyphen then .error (.hyphenMustBeFollowedByNumber s)
    else if s = ("-") then .ok { st with afterHyphen := true }
    else if s = ("…") || s = (":") then .ok { st with ellipsisFound := true }
    else .error (.unrecognizedToken s)

/-- Deciding upon the result of one finished group (ranges.py lines 135-160):
a trailing hyphen fails; no value and no ellipsis yields no item; a bare
ellipsis fails; otherwise the interval is assembled, rejecting a lower bound
above an explicit upper bound. -/
def resolveGroup (st : GroupState) : Except RangeError (Option Item) :=
  if st.afterHyphen then .error .hyphenAtEnd
  else
    match st.lower with
    | none =>
      match st.upper with
      | none =>
        if st.ellipsisFound then .error .ellipsisUnaccompanied else .ok none
      | some u => .ok (some (none, some u))
    | some l =>
      if st.ellipsisFound then
        match st.upper with
        | some u =>
          if l > u then .error (.lowerGreaterThanUpper l u)
          else .ok (some (some l, some u))
        | none => .ok (some (some l, none))
      else .ok (some (some l, some l))

/-- Range._item_contains (ranges.py lines 242-261): whether a not-None value
lies within the closed/half-open/unbounded item. -/
def item_contains (item : Item) (value : Option Int) : Bool :=
  match value with
  | none => false
  | some v =>
    match item with
    | (none, none) => true
    | (none, some u) => decide (v ≤ u)
    | (some l, none) => decide (l ≤ v)
    | (some l, some u) => decide (l ≤ v) && decide (v ≤ u)

/-- Range._items_overlap (ranges.py lines 234-240): the new item other
overlaps the old item when either of its bound values lies within the old
item.  Note the check is one-directional: the old item's bounds are never
tested against the new item. -/
def items_overlap (old other : Item) : Bool :=
  item_contains old other.1 || item_contains old other.2

/-- Digit characters of n, most significant first (fuel-driven; any fuel
above n yields the same digits). -/
def natDigitsAux : Nat → Nat → List Char
  | 0, _ => []
  | fuel + 1, n =>
    if n < 10 then [Char.ofNat (48 + n)]
    else natDigitsAux fuel (n / 10) ++ [Char.ofNat (48 + n % 10)]

/-- Decimal digit characters of a natural number, as Python's "%s" renders it. -/
def natDigits (n : Nat) : List Char := natDigitsAux (n + 1) n

/-- Decimal rendering of an integer, as Python's "%s" format of an int. -/
def intChars (i : Int) : List Char :=
  if i < 0 then '-' :: natDigits i.natAbs else natDigits i.toNat

/-- Characters of Range._repr_item on a present item (ranges.py lines
191-202): ":u" for no lower bound, "l:" for no upper, the bare number when
both bounds coincide, and "l:u" otherwise.  The (none, none) shape is
unreachable (the source asserts upper is not None); rendering it follows the
"%s" interpolation of None. -/
def reprItemChars : Item → List Char
  | (none, none) => ':' :: ("None").data
  | (none, some u) => ':' :: intChars u
  | (some l, none) => intChars l ++ [':']
  | (some l, some u) =>
    if l = u then intChars l else intChars l ++ ':' :: intChars u

/-- Range._repr_item (ranges.py lines 187-205), including the None case. -/
def repr_item : Option Item → String
  | none => ("None")
  | some it => String.mk (reprItemChars it)

/-- Characters of Range.__str__ for a non-empty item list (ranges.py lines
222-229): item renderings joined by ", " in insertion order. -/
def renderChars : List Item → List Char
  | [] => []
  | [it] => reprItemChars it
  | it :: rest => reprItemChars it ++ ',' :: ' ' :: renderChars rest

/-- Range.__str__ (ranges.py lines 217-232): the joined item renderings, or
"None" when items is None or empty (Python truthiness of the list). -/
def Range.renderStr (r : Range) : String :=
  match r.items with
  | some (it :: rest) => String.mk (renderChars (it :: rest))
  | _ => ("None")

/-- Range.__repr__ (ranges.py lines 207-215): the str rendering wrapped in
single quotes when items is truthy, else "None". -/
def Range.reprStr (r : Range) : String :=
  match r.items with
  | some (it :: rest) =>
    String.mk (squote :: (renderChars (it :: rest) ++ [squote]))
  | _ => ("None")

/-- Appending a new group result to the accepted items (ranges.py lines
161-167): the first previously accepted item the new one overlaps aborts
compilation with both renderings; otherwise the item is appended. -/
def appendChecked (acc : List Item) (result : Item) :
    Except RangeError (List Item) :=
  match acc.find? (fun item => items_overlap item result) with
  | some item =>
    .error (.itemsOverlap (repr_item (some item)) (repr_item (some result)))
  | none => .ok (acc ++ [result])

/-- Splitting the token stream into comma-separated groups: the inner while
loop of Range.__init__ stops at each comma token or at end of input
(ranges.py lines 73, 79, 168-169), so the groups are exactly the
comma-separated chunks of the token list, in order. -/
def splitGroups : List Tok → List (List Tok)
  | [] => [[]]
  | t :: ts =>
    if t = Tok.op (",") then [] :: splitGroups ts
    else
      match splitGroups ts with
      | g :: gs => (t :: g) :: gs
      | [] => [[t]]

/-- Processing one comma-separated group against the items accepted so far
(ranges.py lines 74-167): fold the token loop, decide upon the result, skip
an empty result, otherwise overlap-check and append; any raised error
propagates. -/
def processGroup (acc : List Item) (g : List Tok) :
    Except RangeError (List Item) :=
  match List.foldlM processToken initGroupState g with
  | .error e => .error e
  | .ok st =>
    match resolveGroup st with
    | .error e => .error e
    | .ok none => .ok acc
    | .ok (some result) => appendChecked acc result

/-- The whole compilation loop of Range.__init__ over a non-blank text
(ranges.py lines 68-169). -/
def compileText (l : List Char) : Except RangeError (List Item) :=
  List.foldlM processGroup [] (splitGroups (tokenizeRange l))

/-- Python's text.replace("...", ELLIPSIS) (ranges.py lines 33 and 55):
left-to-right, non-overlapping replacement of three dots by the
one-character ellipsis. -/
def replaceEllipsis : List Char → List Char
  | '.' :: '.' :: '.' :: rest => '…' :: replaceEllipsis rest
  | c :: rest => c :: replaceEllipsis rest
  | [] => []

/-- Whether a provided default is blank (the assertion of ranges.py line 52,
which the spec states as the fail-fast "default must not be blank"). -/
def defaultIsBlank : Option String → Bool
  | some d => isBlank d
  | none => false

/-- Range.__init__ (ranges.py lines 42-169): normalize the ellipsis in the
given text, substitute the default when the text is absent or blank, produce
the unrestricted range when nothing remains, and otherwise store the
effective text as description and compile its token groups into items.
The default text itself is not ellipsis-normalized, exactly as in the
source (line 59 assigns it untouched). -/
def rangeFromText (text default : Option String) : Except RangeError Range :=
  if defaultIsBlank default then .error .blankDefault
  else
    match text.map (fun s => String.mk (replaceEllipsis s.data)) with
    | some t =>
      if isBlank t then
        match default with
        | some d => (compileText d.data).map (fun items => ⟨some d, some items⟩)
        | none => .ok ⟨none, none⟩
      else (compileText t.data).map (fun items => ⟨some t, some items⟩)
    | none =>
      match default with
      | some d => (compileText d.data).map (fun items => ⟨some d, some items⟩)
      | none => .ok ⟨none, none⟩

/-- Membership test of one item in Range.validate (ranges.py lines 275-284).
The (none, none) shape is unreachable there (the source asserts upper is not
None when lower is None); no compiled range ever carries it. -/
def itemAccepts (value : Int) : Item → Bool
  | (none, none) => false
  | (none, some u) => decide (value ≤ u)
  | (some l, none) => decide (l ≤ value)
  | (some l, some u) => decide (l ≤ value) && decide (value ≤ u)

/-- Range.validate (ranges.py lines 263-288): succeed outright for the
unrestricted range, otherwise succeed when some item accepts the value and
fail with a RangeValueError carrying name, value, the %r rendering of the
range and the location. -/
def Range.validate (r : Range) (name : String) (value : Int)
    (location : Option String) : Except RangeViolation Unit :=
  match r.items with
  | none => .ok ()
  | some items =>
    if items.any (itemAccepts value) then .ok ()
    else .error ⟨name, value, r.reprStr, location⟩

/-- Well-formedness of a compiled item: at least one bound present, and the
bounds ordered when both are (established by resolveGroup and assumed by the
asserts of validate and _repr_item). -/
def wfItem : Item → Bool
  | (none, none) => false
  | (some l, some u) => decide (l ≤ u)
  | _ => true

/-- The membership rules exactly as the claims state them (spec section 4.3):
an item (None, u) accepts value ≤ u, (l, None) accepts value ≥ l and
(l, u) accepts l ≤ value ≤ u.  This is a second reading of the membership
relation, written from the spec's words to be compared with itemAccepts. -/
def specItemAccepts (it : Item) (v : Int) : Prop :=
  (∃ u, it = (none, some u) ∧ v ≤ u) ∨
  (∃ l, it = (some l, none) ∧ l ≤ v) ∨
  (∃ l u, it = (some l, some u) ∧ l ≤ v ∧ v ≤ u)

/-- Token sequence that re-parses to one rendered item: the hyphen-and-digits
tokens of its bounds joined by the colon, mirroring reprItemChars. -/
def intToks (i : Int) : List Tok :=
  if i < 0 then [Tok.op ("-"), Tok.num (String.mk (natDigits i.natAbs))]
  else [Tok.num (String.mk (natDigits i.toNat))]

/-- Tokens of one rendered item, mirroring reprItemChars shape by shape. -/
def itemToks : Item → List Tok
  | (none, none) => [Tok.op (":"), Tok.name ("None")]
  | (none, some u) => Tok.op (":") :: intToks u
  | (some l, none) => intToks l ++ [Tok.op (":")]
  | (some l, some u) =>
    if l = u then intToks l else intToks l ++ Tok.op (":") :: intToks u

/-- Tokens of the full rendering of an item list, comma-separated. -/
def tokensOfItems : List Item → List Tok
  | [] => []
  | [it] => itemToks it
  | it :: rest => itemToks it ++ Tok.op (",") :: tokensOfItems rest

/-- Invariant of every compiled item list: all items well-formed and, in
compilation order, no later item has a bound value inside an earlier item
(the one-directional check the source actually performs). -/
def compiledInv (items : List Item) : Prop :=
  (∀ it ∈ items, wfItem it = true) ∧
  List.Pairwise (fun a b => items_overlap a b = false) items

theorem digitChar_isDigit {d : Nat} (h : d < 10) :
    (Char.ofNat (48 + d)).isDigit = true := by
  interval_cases d <;> decide

theorem isDigit_not_ws {c : Char} (h : c.isDigit = true) :
    c.isWhitespace = false := by
  simp only [Char.isDigit, Bool.and_eq_true, decide_eq_true_eq] at h
  simp only [Char.isWhitespace, Bool.or_eq_false_iff, decide_eq_false_iff_not]
  refine ⟨⟨⟨?_, ?_⟩, ?_⟩, ?_⟩ <;> rintro rfl <;> revert h <;> decide

theorem isDigit_not_x {c : Char} (h : c.isDigit = true) :
    (c = 'x' || c = 'X') = false := by
  simp only [Char.isDigit, Bool.and_eq_true, decide_eq_true_eq] at h
  simp only [Bool.or_eq_false_iff, decide_eq_false_iff_not]
  constructor <;> rintro rfl <;> revert h <;> decide

theorem spanP_append {p : Char → Bool} {a : List Char} (ha : ∀ c ∈ a, p c = true)
    {b : List Char} (hb : ∀ c cs, b = c :: cs → p c = false) :
    spanP p (a ++ b) = (a, b) := by
  induction a with
  | nil =>
    cases b with
    | nil => rfl
    | cons c cs => simp [spanP, hb c cs rfl]
  | cons x xs ih =>
    have hx : p x = true := ha x (by simp)
    have ih' := ih (fun c hc => ha c (by simp [hc]))
    simp only [List.cons_append, spanP, hx, if_true, List.append_eq]
    rw [ih']

theorem spanP_snd_length (p : Char → Bool) : ∀ l : List Char,
    (spanP p l).2.length ≤ l.length := by
  intro l
  induction l with
  | nil => simp [spanP]
  | cons c cs ih =>
    by_cases h : p c = true
    · simp only [spanP, h, if_true]
      exact Nat.le_succ_of_le ih
    · simp [spanP, h]

theorem scanQuoted_snd_length {q : Char} : ∀ {l : List Char} {r},
    scanQuoted q l = some r → r.2.length ≤ l.length := by
  intro l
  induction l with
  | nil => intro r h; cases h
  | cons c cs ih =>
    intro r h
    by_cases hc : c = q
    · rw [scanQuoted, if_pos hc] at h
      cases h
      simp
    · rw [scanQuoted, if_neg hc] at h
      cases hr : scanQuoted q cs with
      | none => rw [hr] at h; cases h
      | some r2 =>
        obtain ⟨a2, b2⟩ := r2
        rw [hr] at h
        cases h
        simpa using Nat.le_succ_of_le (ih hr)

theorem lexNumber_snd_length (c : Char) (cs : List Char) :
    (lexNumber c cs).2.length ≤ cs.length := by
  cases cs with
  | nil => simp [lexNumber]
  | cons m cs2 =>
    rw [lexNumber]
    by_cases h : (c = '0' && (m = 'x' || m = 'X')) = true
    · simp only [h, if_true]
      exact le_trans (spanP_snd_length _ _) (by simp)
    · simp only [h, if_false]
      exact spanP_snd_length _ _

theorem lexOne_snd_length (c : Char) (cs : List Char) :
    (lexOne c cs).2.length ≤ cs.length := by
  rw [lexOne]
  by_cases h1 : c.isWhitespace = true
  · simp [h1]
  · simp only [h1, if_false]
    by_cases h2 : c.isDigit = true
    · simp only [h2, if_true]
      exact lexNumber_snd_length c cs
    · simp only [h2, if_false]
      by_cases h3 : (c.isAlpha || c = '_') = true
      · simp only [h3, if_true]
        exact spanP_snd_length _ _
      · simp only [h3, if_false]
        by_cases h4 : (c = squote || c = dquote) = true
        · simp only [h4, if_true]
          cases hs : scanQuoted c cs with
          | none => simp
          | some r => simpa using scanQuoted_snd_length hs
        · simp [h4]

theorem tokenizeAux_mono : ∀ (fuel : Nat) (l : List Char), l.length < fuel →
    tokenizeAux fuel l = tokenizeRange l := by
  intro fuel
  induction fuel using Nat.strong_induction_on with
  | _ fuel ih =>
    intro l hl
    match fuel, l with
    | 0, _ => omega
    | f + 1, [] => rfl
    | f + 1, c :: cs =>
      show (lexOne c cs).1 ++ tokenizeAux f (lexOne c cs).2 = tokenizeRange (c :: cs)
      have hrest : (lexOne c cs).2.length ≤ cs.length := lexOne_snd_length c cs
      have hlen : (c :: cs).length = cs.length + 1 := rfl
      have h1 : tokenizeAux f (lexOne c cs).2 = tokenizeRange (lexOne c cs).2 := by
        apply ih f (by omega) _ (by simp at hl; omega)
      have h2 : tokenizeRange (c :: cs) =
          (lexOne c cs).1 ++ tokenizeAux (cs.length + 1) (lexOne c cs).2 := rfl
      rw [h1, h2, ih (cs.length + 1) (by simp at hl; omega) _ (by omega)]

theorem tokenizeRange_nil : tokenizeRange [] = [] := rfl

theorem tokenizeRange_cons (c : Char) (cs : List Char) :
    tokenizeRange (c :: cs) = (lexOne c cs).1 ++ tokenizeRange (lexOne c cs).2 := by
  have h2 : tokenizeRange (c :: cs) =
      (lexOne c cs).1 ++ tokenizeAux (cs.length + 1) (lexOne c cs).2 := rfl
  rw [h2, tokenizeAux_mono (cs.length + 1) _ (by
    have := lexOne_snd_length c cs; omega)]

theorem tokenizeRange_ws {c : Char} (h : c.isWhitespace = true) (cs : List Char) :
    tokenizeRange (c :: cs) = tokenizeRange cs := by
  rw [tokenizeRange_cons, lexOne, if_pos h]
  rfl

theorem tokenizeRange_op {c : Char} (h : c = ':' ∨ c = ',' ∨ c = '-' ∨ c = '…')
    (cs : List Char) :
    tokenizeRange (c :: cs) = Tok.op (String.mk [c]) :: tokenizeRange cs := by
  rcases h with rfl | rfl | rfl | rfl <;> rw [tokenizeRange_cons] <;> rfl

theorem tokenizeRange_digits {ds : List Char} (hne : ds ≠ [])
    (hds : ∀ c ∈ ds, c.isDigit = true) {rest : List Char}
    (hrest : rest = [] ∨ ∃ c cs, rest = c :: cs ∧ (c = ':' ∨ c = ',')) :
    tokenizeRange (ds ++ rest) = Tok.num (String.mk ds) :: tokenizeRange rest := by
  match ds, hne with
  | d :: ds2, _ =>
    have hd : d.isDigit = true := hds d (by simp)
    have hrestHead : ∀ c cs, rest = c :: cs → c.isDigit = false := by
      rintro c cs rfl
      rcases hrest with h | ⟨c', cs', heq, hc⟩
      · cases h
      · cases heq
        rcases hc with rfl | rfl <;> decide
    have hspan : spanP Char.isDigit (ds2 ++ rest) = (ds2, rest) :=
      spanP_append (fun c hc => hds c (by simp [hc])) hrestHead
    have hlexNum : lexNumber d (ds2 ++ rest) = (Tok.num (String.mk (d :: ds2)), rest) := by
      cases hdr : ds2 ++ rest with
      | nil =>
        have h2 : ds2 = [] ∧ rest = [] := by
          constructor <;> [skip; skip] <;>
            cases ds2 <;> cases rest <;> simp_all
        rw [lexNumber, h2.1, h2.2]
      | cons m cs2 =>
        rw [lexNumber]
        have hm : (d = '0' && (m = 'x' || m = 'X')) = false := by
          have hmem : m.isDigit = true ∨ (m = ':' ∨ m = ',') := by
            cases ds2 with
            | nil =>
              simp only [List.nil_append] at hdr
              right
              rcases hrest with h | ⟨c', cs', heq, hc⟩
              · rw [h] at hdr; cases hdr
              · rw [heq] at hdr
                cases hdr
                exact hc
            | cons e es =>
              simp only [List.cons_append, List.cons.injEq] at hdr
              left
              rw [← hdr.1]
              exact hds e (by simp)
          rcases hmem with hm1 | hm1
          · have := isDigit_not_x hm1
            simp [this]
          · rcases hm1 with rfl | rfl <;> simp
        rw [hm]
        simp only [Bool.false_eq_true, if_false]
        rw [← hdr, hspan]
    rw [List.cons_append, tokenizeRange_cons]
    have hlex : lexOne d (ds2 ++ rest) =
        ([Tok.num (String.mk (d :: ds2))], rest) := by
      rw [lexOne, if_neg (by simp [isDigit_not_ws hd]), if_pos hd, hlexNum]
    rw [hlex]
    rfl

theorem natDigitsAux_mono : ∀ (fuel n : Nat), n < fuel →
    natDigitsAux fuel n = natDigits n := by
  intro fuel
  induction fuel using Nat.strong_induction_on with
  | _ fuel ih =>
    intro n hn
    match fuel with
    | 0 => omega
    | f + 1 =>
      show (if n < 10 then _ else natDigitsAux f (n / 10) ++ _) = natDigits n
      by_cases h10 : n < 10
      · rw [if_pos h10]
        show _ = natDigitsAux (n + 1) n
        rw [show natDigitsAux (n + 1) n =
          (if n < 10 then [Char.ofNat (48 + n)]
           else natDigitsAux n (n / 10) ++ [Char.ofNat (48 + n % 10)]) from rfl]
        rw [if_pos h10]
      · rw [if_neg h10]
        have hdiv : n / 10 < n := Nat.div_lt_self (by omega) (by omega)
        rw [ih f (by omega) (n / 10) (by omega)]
        show _ = natDigitsAux (n + 1) n
        rw [show natDigitsAux (n + 1) n =
          (if n < 10 then [Char.ofNat (48 + n)]
           else natDigitsAux n (n / 10) ++ [Char.ofNat (48 + n % 10)]) from rfl]
        rw [if_neg h10, ih n (by omega) (n / 10) (by omega)]

theorem natDigits_step (n : Nat) : natDigits n =
    if n < 10 then [Char.ofNat (48 + n)]
    else natDigits (n / 10) ++ [Char.ofNat (48 + n % 10)] := by
  show natDigitsAux (n + 1) n = _
  rw [show natDigitsAux (n + 1) n =
    (if n < 10 then [Char.ofNat (48 + n)]
     else natDigitsAux n (n / 10) ++ [Char.ofNat (48 + n % 10)]) from rfl]
  by_cases h10 : n < 10
  · rw [if_pos h10, if_pos h10]
  · have hdiv : n / 10 < n := Nat.div_lt_self (by omega) (by omega)
    rw [if_neg h10, if_neg h10, natDigitsAux_mono n (n / 10) hdiv]

theorem natDigits_ne_nil (n : Nat) : natDigits n ≠ [] := by
  rw [natDigits_step]
  by_cases h10 : n < 10
  · simp [h10]
  · simp [h10]

theorem natDigits_all_digit (n : Nat) : ∀ c ∈ natDigits n, c.isDigit = true := by
  induction n using Nat.strong_induction_on with
  | _ n ih =>
    rw [natDigits_step]
    by_cases h10 : n < 10
    · rw [if_pos h10]
      intro c hc
      simp only [List.mem_singleton] at hc
      rw [hc]
      exact digitChar_isDigit h10
    · rw [if_neg h10]
      intro c hc
      rcases List.mem_append.mp hc with hc1 | hc1
      · exact ih (n / 10) (Nat.div_lt_self (by omega) (by omega)) c hc1
      · simp only [List.mem_singleton] at hc1
        rw [hc1]
        exact digitChar_isDigit (Nat.mod_lt n (by omega))

theorem parseDigit_digitChar {d : Nat} (h : d < 10) :
    parseDigit 10 (Char.ofNat (48 + d)) = some d := by
  interval_cases d <;> rfl

theorem parseNatAux_append (base : Nat) (l1 l2 : List Char) (acc : Nat) :
    parseNatAux base (l1 ++ l2) acc =
      match parseNatAux base l1 acc with
      | some m => parseNatAux base l2 m
      | none => none := by
  induction l1 generalizing acc with
  | nil => rfl
  | cons c cs ih =>
    cases hpd : parseDigit base c with
    | none => simp only [List.cons_append, parseNatAux, hpd]
    | some d =>
      simp only [List.cons_append, parseNatAux, hpd]
      exact ih (acc * base + d)

theorem parseNatAux_natDigits (n : Nat) : ∃ k, 0 < k ∧
    ∀ acc, parseNatAux 10 (natDigits n) acc = some (acc * 10 ^ k + n) := by
  induction n using Nat.strong_induction_on with
  | _ n ih =>
    by_cases h10 : n < 10
    · refine ⟨1, by omega, fun acc => ?_⟩
      rw [natDigits_step, if_pos h10]
      show (match parseDigit 10 (Char.ofNat (48 + n)) with
        | some d => parseNatAux 10 [] (acc * 10 + d)
        | none => none) = _
      rw [parseDigit_digitChar h10]
      show some (acc * 10 + n) = _
      norm_num
    · obtain ⟨k, hk, hparse⟩ := ih (n / 10) (Nat.div_lt_self (by omega) (by omega))
      refine ⟨k + 1, by omega, fun acc => ?_⟩
      rw [natDigits_step, if_neg h10, parseNatAux_append, hparse acc]
      show (match parseDigit 10 (Char.ofNat (48 + n % 10)) with
        | some d => parseNatAux 10 [] ((acc * 10 ^ k + n / 10) * 10 + d)
        | none => none) = _
      rw [parseDigit_digitChar (Nat.mod_lt n (by omega))]
      show some ((acc * 10 ^ k + n / 10) * 10 + n % 10) = _
      have : (acc * 10 ^ k + n / 10) * 10 + n % 10 = acc * 10 ^ (k + 1) + n := by
        have hmod := Nat.div_add_mod n 10
        ring_nf
        omega
      rw [this]

theorem parseNatBase_natDigits (n : Nat) :
    parseNatBase 10 (natDigits n) = some n := by
  obtain ⟨k, hk, hparse⟩ := parseNatAux_natDigits n
  have hne := natDigits_ne_nil n
  cases hd : natDigits n with
  | nil => exact absurd hd hne
  | cons c cs =>
    show parseNatAux 10 (c :: cs) 0 = some n
    have h0 := hparse 0
    rw [hd] at h0
    simpa using h0

theorem parseNumberToken_natDigits (n : Nat) :
    parseNumberToken (String.mk (natDigits n)) = some n := by
  have hmain := parseNatBase_natDigits n
  cases hd : natDigits n with
  | nil => exact absurd hd (natDigits_ne_nil n)
  | cons c0 cs =>
    cases cs with
    | nil =>
      show parseNatBase 10 [c0] = some n
      rw [← hd]
      exact hmain
    | cons c1 rest =>
      have hc1 : c1.isDigit = true := natDigits_all_digit n c1 (by rw [hd]; simp)
      have hx := isDigit_not_x hc1
      show (if c0 = '0' && (c1 = 'x' || c1 = 'X') then parseNatBase 16 rest
            else parseNatBase 10 (c0 :: c1 :: rest)) = some n
      rw [hx]
      simp only [Bool.and_false]
      rw [if_neg (by simp)]
      rw [← hd]
      exact hmain

theorem exceptMap_ok {α β γ : Type} {f : α → β} {x : Except γ α} {b : β}
    (h : Except.map f x = .ok b) : ∃ a, x = .ok a ∧ b = f a := by
  cases x with
  | error e => simp [Except.map] at h
  | ok a => refine ⟨a, rfl, ?_⟩; simpa [Except.map] using h.symm

theorem appendChecked_ok {acc l : List Item} {it : Item}
    (h : appendChecked acc it = .ok l) :
    l = acc ++ [it] ∧ ∀ a ∈ acc, items_overlap a it = false := by
  rw [appendChecked] at h
  cases hf : acc.find? (fun item => items_overlap item it) with
  | some a => rw [hf] at h; cases h
  | none =>
    rw [hf] at h
    cases h
    refine ⟨rfl, fun a ha => ?_⟩
    have := List.find?_eq_none.mp hf a ha
    simpa using this

theorem appendChecked_of_no_overlap {acc : List Item} {it : Item}
    (h : ∀ a ∈ acc, items_overlap a it = false) :
    appendChecked acc it = .ok (acc ++ [it]) := by
  rw [appendChecked]
  have hf : acc.find? (fun item => items_overlap item it) = none :=
    List.find?_eq_none.mpr (fun a ha => by simp [h a ha])
  rw [hf]

theorem resolveGroup_ok_some_wf {st : GroupState} {it : Item}
    (h : resolveGroup st = .ok (some it)) : wfItem it = true := by
  obtain ⟨lo, up, el, ah⟩ := st
  cases ah with
  | true => simp [resolveGroup] at h
  | false =>
    cases lo with
    | none =>
      cases up with
      | none => cases el <;> simp [resolveGroup] at h
      | some u =>
        simp [resolveGroup] at h
        rw [← h]
        rfl
    | some l =>
      cases el with
      | false =>
        simp [resolveGroup] at h
        rw [← h]
        simp [wfItem]
      | true =>
        cases up with
        | none =>
          simp [resolveGroup] at h
          rw [← h]
          rfl
        | some u =>
          by_cases hlt : l > u
          · simp [resolveGroup, hlt] at h
          · simp [resolveGroup, hlt] at h
            rw [← h]
            simp [wfItem]
            omega

theorem processGroup_cases {acc l : List Item} {g : List Tok}
    (h : processGroup acc g = .ok l) :
    l = acc ∨ ∃ it, wfItem it = true ∧ l = acc ++ [it] ∧
      ∀ a ∈ acc, items_overlap a it = false := by
  rw [processGroup] at h
  cases hst : List.foldlM processToken initGroupState g with
  | error e => rw [hst] at h; cases h
  | ok st =>
    rw [hst] at h
    dsimp only at h
    cases hr : resolveGroup st with
    | error e => rw [hr] at h; cases h
    | ok o =>
      rw [hr] at h
      cases o with
      | none => cases h; exact Or.inl rfl
      | some it =>
        obtain ⟨rfl, hno⟩ := appendChecked_ok h
        exact Or.inr ⟨it, resolveGroup_ok_some_wf hr, rfl, hno⟩

theorem processGroup_nil (acc : List Item) : processGroup acc [] = .ok acc := rfl

theorem compiledInv_append {items : List Item} {it : Item}
    (hi : compiledInv items) (hwf : wfItem it = true)
    (hno : ∀ a ∈ items, items_overlap a it = false) :
    compiledInv (items ++ [it]) := by
  obtain ⟨hall, hpw⟩ := hi
  constructor
  · intro x hx
    rcases List.mem_append.mp hx with hx1 | hx1
    · exact hall x hx1
    · simp only [List.mem_singleton] at hx1
      rw [hx1]
      exact hwf
  · rw [List.pairwise_append]
    refine ⟨hpw, List.pairwise_singleton _ _, fun a ha b hb => ?_⟩
    simp only [List.mem_singleton] at hb
    rw [hb]
    exact hno a ha

theorem foldlM_processGroup_inv : ∀ (gs : List (List Tok)) (acc l : List Item),
    List.foldlM processGroup acc gs = .ok l → compiledInv acc → compiledInv l := by
  intro gs
  induction gs with
  | nil =>
    intro acc l h hi
    cases h
    exact hi
  | cons g gs ih =>
    intro acc l h hi
    rw [List.foldlM_cons] at h
    cases hg : processGroup acc g with
    | error e => rw [hg] at h; cases h
    | ok acc1 =>
      rw [hg] at h
      refine ih acc1 l h ?_
      rcases processGroup_cases hg with rfl | ⟨it, hwf, rfl, hno⟩
      · exact hi
      · exact compiledInv_append hi hwf hno

theorem compileText_ok_inv {l : List Char} {items : List Item}
    (h : compileText l = .ok items) : compiledInv items :=
  foldlM_processGroup_inv _ _ _ h ⟨by simp, List.Pairwise.nil⟩

theorem rangeFromText_ok_cases {text default : Option String} {r : Range}
    (h : rangeFromText text default = .ok r) :
    r = ⟨none, none⟩ ∨
    ∃ s items, r = ⟨some s, some items⟩ ∧ compileText s.data = .ok items := by
  rw [rangeFromText.eq_def] at h
  by_cases hdb : defaultIsBlank default = true
  · rw [if_pos hdb] at h; cases h
  · rw [if_neg hdb] at h
    cases text with
    | none =>
      simp only [Option.map_none'] at h
      cases default with
      | none => cases h; exact Or.inl rfl
      | some d =>
        obtain ⟨items, hc, rfl⟩ := exceptMap_ok h
        exact Or.inr ⟨d, items, rfl, hc⟩
    | some s =>
      simp only [Option.map_some'] at h
      by_cases hb : isBlank (String.mk (replaceEllipsis s.data)) = true
      · rw [if_pos hb] at h
        cases default with
        | none => cases h; exact Or.inl rfl
        | some d =>
          obtain ⟨items, hc, rfl⟩ := exceptMap_ok h
          exact Or.inr ⟨d, items, rfl, hc⟩
      · rw [if_neg hb] at h
        obtain ⟨items, hc, rfl⟩ := exceptMap_ok h
        exact Or.inr ⟨String.mk (replaceEllipsis s.data), items, rfl, hc⟩

theorem rangeFromText_ok_inv {text default : Option String} {r : Range}
    (h : rangeFromText text default = .ok r) {items : List Item}
    (hi : r.items = some items) : compiledInv items := by
  rcases rangeFromText_ok_cases h with rfl | ⟨s, items2, rfl, hc⟩
  · cases hi
  · simp only at hi
    cases hi
    exact compileText_ok_inv hc

theorem ellipsisChar_not_ws : ('…').isWhitespace = false := by decide

theorem dotChar_not_ws : ('.').isWhitespace = false := by decide

theorem replaceEllipsis_all_ws (l : List Char) :
    (replaceEllipsis l).all Char.isWhitespace = l.all Char.isWhitespace := by
  induction l using replaceEllipsis.induct with
  | case1 rest ih =>
    simp [replaceEllipsis, ih, ellipsisChar_not_ws, dotChar_not_ws]
  | case2 c rest h ih => simp [replaceEllipsis, ih]
  | case3 => rfl

theorem replaceEllipsis_no_dot : ∀ {l : List Char},
    (∀ c ∈ l, ¬ c = '.') → replaceEllipsis l = l := by
  intro l
  induction l using replaceEllipsis.induct with
  | case1 rest ih =>
    intro h
    exact absurd rfl (h '.' (by simp))
  | case2 c rest h ih =>
    intro hnd
    rw [replaceEllipsis.eq_2 c rest h, ih (fun d hd => hnd d (by simp [hd]))]
  | case3 => intro _; rfl

theorem itemAccepts_iff_spec {it : Item} (hwf : wfItem it = true) (v : Int) :
    itemAccepts v it = true ↔ specItemAccepts it v := by
  obtain ⟨lo, up⟩ := it
  cases lo <;> cases up <;>
    simp [itemAccepts, specItemAccepts, wfItem] at hwf ⊢
  constructor
  · exact fun h => ⟨_, _, ⟨rfl, rfl⟩, h⟩
  · rintro ⟨l, u, ⟨rfl, rfl⟩, h⟩
    exact h

theorem validate_eq {r : Range} {items : List Item} (hi : r.items = some items)
    (name : String) (v : Int) (loc : Option String) :
    (r.validate name v loc = .ok () ↔ ∃ it ∈ items, itemAccepts v it = true) ∧
    (r.validate name v loc = .ok () ∨
      r.validate name v loc = .error ⟨name, v, r.reprStr, loc⟩) := by
  obtain ⟨d, o⟩ := r
  simp only at hi
  subst hi
  have hv : (Range.mk d (some items)).validate name v loc =
      (if items.any (itemAccepts v) then Except.ok ()
       else Except.error ⟨name, v, (Range.mk d (some items)).reprStr, loc⟩) := rfl
  rw [hv]
  by_cases ha : items.any (itemAccepts v) = true
  · rw [if_pos ha]
    exact ⟨⟨(fun _ => by simpa using List.any_eq_true.mp ha), (fun _ => rfl)⟩,
      Or.inl rfl⟩
  · rw [if_neg ha]
    exact ⟨⟨(fun hc => by cases hc),
      (fun hex => absurd (List.any_eq_true.mpr (by simpa using hex)) ha)⟩,
      Or.inr rfl⟩

/-- Claim C1, counterexample: the overlap invariant fails as stated.  The
text "1, 0...5" compiles successfully, yet both of its distinct items accept
the value 1, so their accepted sets are not disjoint; equally, the bound 1
of the first item lies within the second item, yet compilation did not fail,
because the source only tests the new item's bounds against the old items. -/
theorem range_overlap_claim_counterexample :
    rangeFromText (some ("1, 0...5")) none =
      .ok ⟨some ("1, 0…5"), some [(some 1, some 1), (some 0, some 5)]⟩ ∧
    itemAccepts 1 ((some 1 : Option Int), (some 1 : Option Int)) = true ∧
    itemAccepts 1 ((some 0 : Option Int), (some 5 : Option Int)) = true :=
  ⟨rfl, rfl, rfl⟩

/-- Claim C1, amended: the invariant actually established is one-directional.
For every successfully constructed Range, any two items in compilation order
satisfy the source's overlap predicate negatively: no bound value of a later
item lies within an earlier item.  (Items may still intersect when an
earlier item lies strictly inside a later one, as the counterexample shows.) -/
theorem range_overlap_check_one_directional {text default : Option String}
    {r : Range} (h : rangeFromText text default = .ok r) {items : List Item}
    (hi : r.items = some items) :
    List.Pairwise (fun a b => items_overlap a b = false) items :=
  (rangeFromText_ok_inv h hi).2

/-- Witness for range_overlap_check_one_directional at the text "1...5, 9". -/
theorem range_overlap_check_one_directional_witness :
    List.Pairwise (fun a b => items_overlap a b = false)
      [((some 1 : Option Int), (some 5 : Option Int)), (some 9, some 9)] :=
  @range_overlap_check_one_directional (some ("1...5, 9")) none
    ⟨some ("1…5, 9"), some [(some 1, some 5), (some 9, some 9)]⟩ rfl
    [(some 1, some 5), (some 9, some 9)] rfl

/-- Claim C3: for every constructed Range whose items is not None and every
integer, validate succeeds exactly when the value falls inside at least one
item under the spec's membership rules, and a failing validate returns the
violation carrying the name, the value, the canonical rendering of the range
and the location. -/
theorem validate_iff_member {text default : Option String} {r : Range}
    (hok : rangeFromText text default = .ok r) {items : List Item}
    (hi : r.items = some items) (name : String) (value : Int)
    (location : Option String) :
    (r.validate name value location = .ok () ↔
      ∃ it ∈ items, specItemAccepts it value) ∧
    (r.validate name value location = .ok () ∨
      r.validate name value location =
        .error ⟨name, value, r.reprStr, location⟩) := by
  obtain ⟨hall, _⟩ := rangeFromText_ok_inv hok hi
  obtain ⟨hiff, hdisj⟩ := validate_eq hi name value location
  refine ⟨?_, hdisj⟩
  rw [hiff]
  constructor
  · rintro ⟨it, hit, hacc⟩
    exact ⟨it, hit, (itemAccepts_iff_spec (hall it hit) value).mp hacc⟩
  · rintro ⟨it, hit, hacc⟩
    exact ⟨it, hit, (itemAccepts_iff_spec (hall it hit) value).mpr hacc⟩

/-- Witness for validate_iff_member at the text "1...5", name "x", value 3. -/
theorem validate_iff_member_witness :
    (Range.validate ⟨some ("1…5"), some [(some 1, some 5)]⟩ ("x") 3 none =
        .ok () ↔
      ∃ it ∈ [((some 1 : Option Int), (some 5 : Option Int))],
        specItemAccepts it 3) ∧
    (Range.validate ⟨some ("1…5"), some [(some 1, some 5)]⟩ ("x") 3 none =
        .ok () ∨
      Range.validate ⟨some ("1…5"), some [(some 1, some 5)]⟩ ("x") 3 none =
        .error ⟨("x"), 3,
          Range.reprStr ⟨some ("1…5"), some [(some 1, some 5)]⟩, none⟩) :=
  @validate_iff_member (some ("1...5")) none
    ⟨some ("1…5"), some [(some 1, some 5)]⟩ rfl
    [(some 1, some 5)] rfl ("x") 3 none

/-- Claim C4: for text that is None or blank and no default, construction
succeeds with no description and no items, and validate then succeeds for
every integer whatsoever. -/
theorem blank_text_unrestricted {text : Option String}
    (h : text = none ∨ ∃ s, text = some s ∧ isBlank s = true) :
    rangeFromText text none = .ok ⟨none, none⟩ ∧
    ∀ (name : String) (value : Int) (location : Option String),
      Range.validate ⟨none, none⟩ name value location = .ok () := by
  refine ⟨?_, fun name value location => rfl⟩
  rcases h with rfl | ⟨s, rfl, hb⟩
  · rfl
  · rw [rangeFromText.eq_def]
    rw [if_neg (by simp [defaultIsBlank])]
    simp only [Option.map_some']
    rw [if_pos ?_]
    show (replaceEllipsis s.data).all Char.isWhitespace = true
    rw [replaceEllipsis_all_ws]
    exact hb

/-- Witness for blank_text_unrestricted at the blank text of two spaces. -/
theorem blank_text_unrestricted_witness :
    rangeFromText (some ("  ")) none = .ok ⟨none, none⟩ ∧
    ∀ (name : String) (value : Int) (location : Option String),
      Range.validate ⟨none, none⟩ name value location = .ok () :=
  blank_text_unrestricted (Or.inr ⟨("  "), rfl, by decide⟩)

/-- Claim C5, counterexample: the stored description is not always the
original text character for character.  Constructing from "1...40" stores
"1…40" (the text with the three dots replaced by the one-character
ellipsis, ranges.py line 55 running before line 67), which differs from the
original. -/
theorem description_counterexample :
    rangeFromText (some ("1...40")) none =
      .ok ⟨some ("1…40"), some [(some 1, some 40)]⟩ ∧
    ("1…40" : String) ≠ ("1...40") :=
  ⟨rfl, by decide⟩

/-- Claim C5, amended: for every non-blank input text, the description of
the successfully constructed Range equals the original text with every
occurrence of "..." replaced by the one-character ellipsis; in particular it
equals the original text exactly when the replacement leaves it unchanged. -/
theorem description_is_normalized_text {s : String} {default : Option String}
    (hs : isBlank s = false) {r : Range}
    (h : rangeFromText (some s) default = .ok r) :
    r.description = some (String.mk (replaceEllipsis s.data)) := by
  rw [rangeFromText.eq_def] at h
  by_cases hdb : defaultIsBlank default = true
  · rw [if_pos hdb] at h
    cases h
  · rw [if_neg hdb] at h
    simp only [Option.map_some'] at h
    have hb : isBlank (String.mk (replaceEllipsis s.data)) = false := by
      show (replaceEllipsis s.data).all Char.isWhitespace = false
      rw [replaceEllipsis_all_ws]
      exact hs
    rw [if_neg (by simp [hb])] at h
    obtain ⟨items, hc, rfl⟩ := exceptMap_ok h
    rfl

/-- Witness for description_is_normalized_text at the text "1...40". -/
theorem description_is_normalized_text_witness :
    Range.description ⟨some ("1…40"), some [(some 1, some 40)]⟩ =
      some (String.mk (replaceEllipsis ("1...40").data)) :=
  @description_is_normalized_text ("1...40") none (by decide)
    ⟨some ("1…40"), some [(some 1, some 40)]⟩ rfl

/-- Claim C6, counterexample: a non-blank text can finish groups with no
value and no ellipsis without failing.  The text "," is non-blank, both of
its groups are empty, and compilation succeeds with an empty item list
(rather than every group contributing an item or failing). -/
theorem empty_groups_counterexample :
    rangeFromText (some (",")) none = .ok ⟨some (","), some []⟩ := rfl

/-- Claim C6, amended: a group with no value and no ellipsis simply
contributes no item, in any position of any text; every group either fails,
contributes nothing (when empty), or contributes exactly one appended item. -/
theorem group_contributes_at_most_one_item :
    (∀ acc : List Item, processGroup acc [] = .ok acc) ∧
    (∀ (acc l : List Item) (g : List Tok), processGroup acc g = .ok l →
      l = acc ∨ ∃ it, l = acc ++ [it]) := by
  refine ⟨processGroup_nil, fun acc l g h => ?_⟩
  rcases processGroup_cases h with rfl | ⟨it, _, rfl, _⟩
  · exact Or.inl rfl
  · exact Or.inr ⟨it, rfl⟩

/-- Witness for group_contributes_at_most_one_item at the empty group. -/
theorem group_contributes_at_most_one_item_witness :
    ([] : List Item) = [] ∨ ∃ it, ([] : List Item) = [] ++ [it] :=
  group_contributes_at_most_one_item.2 [] [] [] rfl

/-- Claim C7, counterexample: a hyphen followed by a non-number token does
not always fail with the hyphen error.  In "-'A' 5" the hyphen is followed
by the quoted token 'A'; compilation does fail, but with the
number-must-be-followed-by-ellipsis error (raised at the later number 5,
which the still-set hyphen flag negates), not with either hyphen message. -/
theorem hyphen_error_counterexample :
    rangeFromText (some ("-'A' 5")) none =
      .error (.numberMustBeFollowedByEllipsis ("5")) ∧
    RangeError.isHyphenError (.numberMustBeFollowedByEllipsis ("5")) = false :=
  ⟨rfl, rfl⟩

/-- Claim C7, amended: with the hyphen flag set, a punctuation token or the
end of the group raises the hyphen error, and a number token is parsed,
negated and clears the flag; but a quoted (or name) token slips into the
value branch without negation and leaves the flag set, so the failure that
inevitably follows may carry a different error. -/
theorem hyphen_handling_amended :
    (∀ (st : GroupState) (s : String), st.afterHyphen = true →
      processToken st (.op s) = .error (.hyphenMustBeFollowedByNumber s)) ∧
    (∀ st : GroupState, st.afterHyphen = true →
      resolveGroup st = .error .hyphenAtEnd) ∧
    (∀ (st : GroupState) (n : Nat), st.afterHyphen = true →
      st.ellipsisFound = false → st.lower = none →
      processToken st (.num (String.mk (natDigits n))) =
        .ok { st with lower := some (-(n : Int)), afterHyphen := false }) ∧
    (∀ (st : GroupState) (c : Char), st.afterHyphen = true →
      st.ellipsisFound = false → st.lower = none →
      processToken st (.str (String.mk [squote, c, squote])) =
        .ok { st with lower := some ((c.toNat : Int)) }) := by
  refine ⟨fun st s h => ?_, fun st h => ?_, fun st n h he hl => ?_,
    fun st c h he hl => ?_⟩
  · simp [processToken, h]
  · simp [resolveGroup, h]
  · simp [processToken, parseNumberToken_natDigits, h, placeValue, he, hl]
  · show placeValue st ((c.toNat : Int)) _ = _
    simp [placeValue, he, hl]

/-- Witness for hyphen_handling_amended at concrete group states. -/
theorem hyphen_handling_amended_witness :
    processToken ⟨none, none, false, true⟩ (.op (":")) =
      .error (.hyphenMustBeFollowedByNumber (":")) ∧
    resolveGroup ⟨some 5, none, false, true⟩ = .error .hyphenAtEnd ∧
    processToken ⟨none, none, false, true⟩ (.num (String.mk (natDigits 7))) =
      .ok ⟨some (-7), none, false, false⟩ ∧
    processToken ⟨none, none, false, true⟩
        (.str (String.mk [squote, 'A', squote])) =
      .ok ⟨some 65, none, false, true⟩ :=
  ⟨hyphen_handling_amended.1 _ _ rfl,
   hyphen_handling_amended.2.1 _ rfl,
   hyphen_handling_amended.2.2.1 ⟨none, none, false, true⟩ 7 rfl rfl rfl,
   hyphen_handling_amended.2.2.2 ⟨none, none, false, true⟩ 'A' rfl rfl rfl⟩

/-- Claim C8: a group with both bounds and an ellipsis fails with the
ordering error exactly when the lower bound exceeds the upper; concretely,
"5...1" fails with that error and "1...5" compiles to the item (1, 5). -/
theorem ellipsis_bounds_order :
    rangeFromText (some ("5...1")) none =
      .error (.lowerGreaterThanUpper 5 1) ∧
    rangeFromText (some ("1...5")) none =
      .ok ⟨some ("1…5"), some [(some 1, some 5)]⟩ ∧
    ∀ l u : Int, resolveGroup ⟨some l, some u, true, false⟩ =
      if l > u then .error (.lowerGreaterThanUpper l u)
      else .ok (some (some l, some u)) := by
  refine ⟨rfl, rfl, fun l u => ?_⟩
  by_cases hlt : l > u
  · simp [resolveGroup, hlt]
  · simp [resolveGroup, hlt]

/-- Claim C9: a quoted token contributes a value exactly when its text is
three characters (quote, one character, quote), yielding the enclosed
character's code point; any other quoted-token length fails with the
single-character error.  Concretely "'A'" compiles to the item (65, 65). -/
theorem quoted_single_char :
    rangeFromText (some ("'A'")) none =
      .ok ⟨some ("'A'"), some [(some 65, some 65)]⟩ ∧
    (∀ (st : GroupState) (s : String), s.length ≠ 3 →
      processToken st (.str s) = .error (.textNotSingleChar s)) ∧
    (∀ (st : GroupState) (q c : Char), q = squote ∨ q = dquote →
      st.ellipsisFound = false → st.lower = none →
      processToken st (.str (String.mk [q, c, q])) =
        .ok { st with lower := some ((c.toNat : Int)) }) := by
  refine ⟨rfl, ?_, ?_⟩
  · intro st s hlen
    obtain ⟨data⟩ := s
    match data, hlen with
    | [], _ => rfl
    | [a], _ => rfl
    | [a, b], _ => rfl
    | [a, b, c], hlen => exact absurd rfl hlen
    | a :: b :: c :: d :: rest, _ => rfl
  · intro st q c _ he hl
    show placeValue st ((c.toNat : Int)) _ = _
    simp [placeValue, he, hl]

/-- Witness for quoted_single_char at a two-character quoted token and at
the single character A. -/
theorem quoted_single_char_witness :
    processToken initGroupState (.str ("'ab'")) =
      .error (.textNotSingleChar ("'ab'")) ∧
    processToken initGroupState (.str (String.mk [squote, 'A', squote])) =
      .ok ⟨some 65, none, false, false⟩ :=
  ⟨quoted_single_char.2.1 initGroupState ("'ab'") (by decide),
   quoted_single_char.2.2 initGroupState squote 'A' (Or.inl rfl) rfl rfl⟩

/-- Claim C10: colon and ellipsis punctuation merely set the ellipsis flag,
so repeating them is harmless and idempotent: "1::5" and "1:5" compile to
the identical single item (1, 5); an error arises only from a further value
once both bounds are set. -/
theorem repeated_ellipsis_idempotent :
    rangeFromText (some ("1::5")) none =
      .ok ⟨some ("1::5"), some [(some 1, some 5)]⟩ ∧
    rangeFromText (some ("1:5")) none =
      .ok ⟨some ("1:5"), some [(some 1, some 5)]⟩ ∧
    (∀ st : GroupState, st.afterHyphen = false →
      processToken st (.op (":")) = .ok { st with ellipsisFound := true } ∧
      processToken st (.op ("…")) = .ok { st with ellipsisFound := true }) ∧
    (∀ (st : GroupState) (s : String) (n : Nat), st.ellipsisFound = true →
      st.upper ≠ none → parseNumberToken s = some n →
      processToken st (.num s) = .error (.atMostLowerAndUpper s)) := by
  refine ⟨rfl, rfl, fun st h => ⟨?_, ?_⟩, fun st s n he hu hp => ?_⟩
  · simp [processToken, h]
  · simp [processToken, h]
  · cases hup : st.upper with
    | none => exact absurd hup hu
    | some u => simp [processToken, hp, placeValue, he, hup]

/-- Witness for repeated_ellipsis_idempotent at concrete group states. -/
theorem repeated_ellipsis_idempotent_witness :
    processToken ⟨some 1, none, false, false⟩ (.op (":")) =
      .ok ⟨some 1, none, true, false⟩ ∧
    processToken ⟨some 1, some 5, true, false⟩ (.num ("7")) =
      .error (.atMostLowerAndUpper ("7")) :=
  ⟨(repeated_ellipsis_idempotent.2.2.1 ⟨some 1, none, false, false⟩ rfl).1,
   repeated_ellipsis_idempotent.2.2.2 ⟨some 1, some 5, true, false⟩ ("7") 7
     rfl (by simp) rfl⟩

theorem isDigit_ne {c d : Char} (h : c.isDigit = true) (hd : d.isDigit = false) :
    ¬ c = d := by
  intro heq
  rw [heq, hd] at h
  cases h

theorem intChars_mem {i : Int} {c : Char} (hc : c ∈ intChars i) :
    c.isDigit = true ∨ c = '-' := by
  rw [intChars] at hc
  by_cases h : i < 0
  · rw [if_pos h] at hc
    rcases List.mem_cons.mp hc with rfl | hm
    · exact Or.inr rfl
    · exact Or.inl (natDigits_all_digit _ _ hm)
  · rw [if_neg h] at hc
    exact Or.inl (natDigits_all_digit _ _ hc)

theorem reprItemChars_mem {it : Item} (hwf : wfItem it = true) {c : Char}
    (hc : c ∈ reprItemChars it) : c.isDigit = true ∨ c = '-' ∨ c = ':' := by
  obtain ⟨lo, up⟩ := it
  cases lo with
  | none =>
    cases up with
    | none => cases hwf
    | some u =>
      rcases List.mem_cons.mp hc with rfl | hm
      · exact Or.inr (Or.inr rfl)
      · rcases intChars_mem hm with h | h
        · exact Or.inl h
        · exact Or.inr (Or.inl h)
  | some l =>
    cases up with
    | none =>
      rcases List.mem_append.mp hc with hm | hm
      · rcases intChars_mem hm with h | h
        · exact Or.inl h
        · exact Or.inr (Or.inl h)
      · simp only [List.mem_singleton] at hm
        exact Or.inr (Or.inr hm)
    | some u =>
      by_cases heq : l = u
      · rw [show reprItemChars (some l, some u) =
          (if l = u then intChars l else intChars l ++ ':' :: intChars u)
          from rfl, if_pos heq] at hc
        rcases intChars_mem hc with h | h
        · exact Or.inl h
        · exact Or.inr (Or.inl h)
      · rw [show reprItemChars (some l, some u) =
          (if l = u then intChars l else intChars l ++ ':' :: intChars u)
          from rfl, if_neg heq] at hc
        rcases List.mem_append.mp hc with hm | hm
        · rcases intChars_mem hm with h | h
          · exact Or.inl h
          · exact Or.inr (Or.inl h)
        · rcases List.mem_cons.mp hm with rfl | hm2
          · exact Or.inr (Or.inr rfl)
          · rcases intChars_mem hm2 with h | h
            · exact Or.inl h
            · exact Or.inr (Or.inl h)

theorem renderChars_mem : ∀ {items : List Item},
    (∀ it ∈ items, wfItem it = true) → ∀ {c : Char}, c ∈ renderChars items →
    c.isDigit = true ∨ c = '-' ∨ c = ':' ∨ c = ',' ∨ c = ' ' := by
  intro items
  induction items with
  | nil => intro _ c hc; cases hc
  | cons it rest ih =>
    intro hwf c hc
    cases rest with
    | nil =>
      rcases reprItemChars_mem (hwf it (by simp)) hc with h | h | h
      · exact Or.inl h
      · exact Or.inr (Or.inl h)
      · exact Or.inr (Or.inr (Or.inl h))
    | cons it2 rest2 =>
      rw [show renderChars (it :: it2 :: rest2) =
        reprItemChars it ++ ',' :: ' ' :: renderChars (it2 :: rest2) from rfl] at hc
      rcases List.mem_append.mp hc with hm | hm
      · rcases reprItemChars_mem (hwf it (by simp)) hm with h | h | h
        · exact Or.inl h
        · exact Or.inr (Or.inl h)
        · exact Or.inr (Or.inr (Or.inl h))
      · rcases List.mem_cons.mp hm with rfl | hm2
        · exact Or.inr (Or.inr (Or.inr (Or.inl rfl)))
        · rcases List.mem_cons.mp hm2 with rfl | hm3
          · exact Or.inr (Or.inr (Or.inr (Or.inr rfl)))
          · exact ih (fun x hx => hwf x (by simp [hx])) hm3

theorem intChars_ne_nil (i : Int) : intChars i ≠ [] := by
  rw [intChars]
  by_cases h : i < 0
  · simp [h]
  · simp [h, natDigits_ne_nil]

theorem reprItemChars_ne_nil (it : Item) : reprItemChars it ≠ [] := by
  obtain ⟨lo, up⟩ := it
  cases lo with
  | none => cases up <;> simp [reprItemChars]
  | some l =>
    cases up with
    | none => simp [reprItemChars]
    | some u =>
      by_cases heq : l = u <;>
        simp [reprItemChars, heq, intChars_ne_nil]

theorem renderChars_not_blank {it : Item} {rest : List Item}
    (hwf : wfItem it = true) :
    (renderChars (it :: rest)).all Char.isWhitespace = false := by
  obtain ⟨c, hc⟩ := List.exists_mem_of_ne_nil _ (reprItemChars_ne_nil it)
  have hcw : c.isWhitespace = false := by
    rcases reprItemChars_mem hwf hc with h | h | h
    · exact isDigit_not_ws h
    · rw [h]; decide
    · rw [h]; decide
  have hmem : c ∈ renderChars (it :: rest) := by
    cases rest with
    | nil => exact hc
    | cons it2 rest2 =>
      rw [show renderChars (it :: it2 :: rest2) =
        reprItemChars it ++ ',' :: ' ' :: renderChars (it2 :: rest2) from rfl]
      exact List.mem_append_left _ hc
  rcases hall : (renderChars (it :: rest)).all Char.isWhitespace with _ | _
  · rfl
  · exact absurd (List.all_eq_true.mp hall c hmem) (by rw [hcw]; simp)

theorem renderChars_no_dot {items : List Item}
    (hwf : ∀ it ∈ items, wfItem it = true) :
    ∀ c ∈ renderChars items, ¬ c = '.' := by
  intro c hc
  rcases renderChars_mem hwf hc with h | h | h | h | h
  · exact isDigit_ne h (by decide)
  · rw [h]; decide
  · rw [h]; decide
  · rw [h]; decide
  · rw [h]; decide

theorem comma_not_mem_intToks (i : Int) : Tok.op (",") ∉ intToks i := by
  rw [intToks]
  by_cases h : i < 0 <;> simp [h]

theorem comma_not_mem_itemToks (it : Item) : Tok.op (",") ∉ itemToks it := by
  obtain ⟨lo, up⟩ := it
  have h1 := comma_not_mem_intToks
  cases lo with
  | none =>
    cases up with
    | none => simp [itemToks]
    | some u =>
      simp only [itemToks, List.mem_cons]
      rintro (h | h)
      · simp at h
      · exact h1 u h
  | some l =>
    cases up with
    | none =>
      intro hm
      rcases List.mem_append.mp hm with hm2 | hm2
      · exact h1 l hm2
      · simp at hm2
    | some u =>
      by_cases heq : l = u
      · rw [show itemToks (some l, some u) =
          (if l = u then intToks l
           else intToks l ++ Tok.op (":") :: intToks u) from rfl, if_pos heq]
        exact h1 l
      · rw [show itemToks (some l, some u) =
          (if l = u then intToks l
           else intToks l ++ Tok.op (":") :: intToks u) from rfl, if_neg heq]
        intro hm
        rcases List.mem_append.mp hm with hm2 | hm2
        · exact h1 l hm2
        · rcases List.mem_cons.mp hm2 with h3 | h3
          · simp at h3
          · exact h1 u h3

theorem splitGroups_no_comma {g : List Tok} (h : Tok.op (",") ∉ g) :
    splitGroups g = [g] := by
  induction g with
  | nil => rfl
  | cons t ts ih =>
    rw [splitGroups, if_neg (fun heq => h (by rw [heq]; simp)),
      ih (fun hm => h (by simp [hm]))]

theorem splitGroups_append {g rest : List Tok} (h : Tok.op (",") ∉ g) :
    splitGroups (g ++ Tok.op (",") :: rest) = g :: splitGroups rest := by
  induction g with
  | nil => rw [List.nil_append, splitGroups, if_pos rfl]
  | cons t ts ih =>
    rw [List.cons_append, splitGroups,
      if_neg (fun heq => h (by rw [heq]; simp)),
      ih (fun hm => h (by simp [hm]))]

theorem splitGroups_tokensOfItems : ∀ {items : List Item}, items ≠ [] →
    splitGroups (tokensOfItems items) = items.map itemToks := by
  intro items
  induction items with
  | nil => intro h; cases h rfl
  | cons it rest ih =>
    intro _
    cases rest with
    | nil => exact splitGroups_no_comma (comma_not_mem_itemToks it)
    | cons it2 rest2 =>
      rw [show tokensOfItems (it :: it2 :: rest2) =
        itemToks it ++ Tok.op (",") :: tokensOfItems (it2 :: rest2) from rfl]
      rw [splitGroups_append (comma_not_mem_itemToks it), ih (by simp)]
      rfl

theorem tokenize_intChars (i : Int) {rest : List Char}
    (hrest : rest = [] ∨ ∃ c cs, rest = c :: cs ∧ (c = ':' ∨ c = ',')) :
    tokenizeRange (intChars i ++ rest) = intToks i ++ tokenizeRange rest := by
  rw [intChars, intToks]
  by_cases hneg : i < 0
  · rw [if_pos hneg, if_pos hneg, List.cons_append,
      tokenizeRange_op (Or.inr (Or.inr (Or.inl rfl))),
      tokenizeRange_digits (natDigits_ne_nil _) (natDigits_all_digit _) hrest]
    rfl
  · rw [if_neg hneg, if_neg hneg,
      tokenizeRange_digits (natDigits_ne_nil _) (natDigits_all_digit _) hrest]
    rfl

theorem tokenize_reprItem {it : Item} (hwf : wfItem it = true) {rest : List Char}
    (hrest : rest = [] ∨ ∃ cs, rest = ',' :: cs) :
    tokenizeRange (reprItemChars it ++ rest) = itemToks it ++ tokenizeRange rest := by
  have hrest2 : rest = [] ∨ ∃ c cs, rest = c :: cs ∧ (c = ':' ∨ c = ',') := by
    rcases hrest with h | ⟨cs, h⟩
    · exact Or.inl h
    · exact Or.inr ⟨',', cs, h, Or.inr rfl⟩
  obtain ⟨lo, up⟩ := it
  cases lo with
  | none =>
    cases up with
    | none => cases hwf
    | some u =>
      show tokenizeRange (':' :: (intChars u ++ rest)) = _
      rw [tokenizeRange_op (Or.inl rfl), tokenize_intChars u hrest2]
      rfl
  | some l =>
    cases up with
    | none =>
      show tokenizeRange ((intChars l ++ [':']) ++ rest) = _
      rw [List.append_assoc, List.singleton_append,
        tokenize_intChars l (Or.inr ⟨':', rest, rfl, Or.inl rfl⟩),
        tokenizeRange_op (Or.inl rfl)]
      simp only [itemToks, List.append_assoc, List.singleton_append]
    | some u =>
      by_cases heq : l = u
      · show tokenizeRange ((if l = u then intChars l
          else intChars l ++ ':' :: intChars u) ++ rest) = _
        rw [if_pos heq, tokenize_intChars l hrest2]
        rw [show itemToks (some l, some u) =
          (if l = u then intToks l
           else intToks l ++ Tok.op (":") :: intToks u) from rfl, if_pos heq]
      · show tokenizeRange ((if l = u then intChars l
          else intChars l ++ ':' :: intChars u) ++ rest) = _
        rw [if_neg heq, List.append_assoc, List.cons_append,
          tokenize_intChars l (Or.inr ⟨':', intChars u ++ rest, rfl, Or.inl rfl⟩),
          tokenizeRange_op (Or.inl rfl), tokenize_intChars u hrest2]
        rw [show itemToks (some l, some u) =
          (if l = u then intToks l
           else intToks l ++ Tok.op (":") :: intToks u) from rfl, if_neg heq]
        simp

theorem tokenize_renderChars : ∀ {items : List Item},
    (∀ it ∈ items, wfItem it = true) →
    tokenizeRange (renderChars items) = tokensOfItems items := by
  intro items
  induction items with
  | nil => intro _; rfl
  | cons it rest ih =>
    intro hwf
    cases rest with
    | nil =>
      show tokenizeRange (reprItemChars it) = itemToks it
      have := @tokenize_reprItem it (hwf it (by simp)) [] (Or.inl rfl)
      simpa [tokenizeRange_nil] using this
    | cons it2 rest2 =>
      show tokenizeRange (reprItemChars it ++ ',' :: ' ' :: renderChars (it2 :: rest2)) =
        itemToks it ++ Tok.op (",") :: tokensOfItems (it2 :: rest2)
      rw [tokenize_reprItem (hwf it (by simp)) (Or.inr ⟨_, rfl⟩),
        tokenizeRange_op (Or.inr (Or.inl rfl)),
        tokenizeRange_ws (by decide) (renderChars (it2 :: rest2)),
        ih (fun x hx => hwf x (by simp [hx]))]

theorem processToken_intToks_lower (i : Int) :
    List.foldlM processToken initGroupState (intToks i) =
      .ok ⟨some i, none, false, false⟩ := by
  rw [intToks]
  by_cases hneg : i < 0
  · rw [if_pos hneg, List.foldlM_cons]
    have h1 : processToken initGroupState (Tok.op ("-")) =
        .ok ⟨none, none, false, true⟩ := rfl
    rw [h1]
    show List.foldlM processToken ⟨none, none, false, true⟩
      [Tok.num (String.mk (natDigits i.natAbs))] = _
    rw [List.foldlM_cons]
    have h2 : processToken ⟨none, none, false, true⟩
        (Tok.num (String.mk (natDigits i.natAbs))) =
        .ok ⟨some (-(i.natAbs : Int)), none, false, false⟩ := by
      simp [processToken, parseNumberToken_natDigits, placeValue]
    rw [h2]
    have h3 : -(i.natAbs : Int) = i := by omega
    rw [h3]
    rfl
  · rw [if_neg hneg, List.foldlM_cons]
    have h2 : processToken initGroupState
        (Tok.num (String.mk (natDigits i.toNat))) =
        .ok ⟨some ((i.toNat : Nat) : Int), none, false, false⟩ := by
      simp [processToken, parseNumberToken_natDigits, placeValue, initGroupState]
    rw [h2]
    have h3 : ((i.toNat : Nat) : Int) = i := by omega
    rw [h3]
    rfl

theorem processToken_intToks_upper (i : Int) (lo : Option Int) :
    List.foldlM processToken ⟨lo, none, true, false⟩ (intToks i) =
      .ok ⟨lo, some i, true, false⟩ := by
  rw [intToks]
  by_cases hneg : i < 0
  · rw [if_pos hneg, List.foldlM_cons]
    have h1 : processToken ⟨lo, none, true, false⟩ (Tok.op ("-")) =
        .ok ⟨lo, none, true, true⟩ := rfl
    rw [h1]
    show List.foldlM processToken ⟨lo, none, true, true⟩
      [Tok.num (String.mk (natDigits i.natAbs))] = _
    rw [List.foldlM_cons]
    have h2 : processToken ⟨lo, none, true, true⟩
        (Tok.num (String.mk (natDigits i.natAbs))) =
        .ok ⟨lo, some (-(i.natAbs : Int)), true, false⟩ := by
      simp [processToken, parseNumberToken_natDigits, placeValue]
    rw [h2]
    have h3 : -(i.natAbs : Int) = i := by omega
    rw [h3]
    rfl
  · rw [if_neg hneg, List.foldlM_cons]
    have h2 : processToken ⟨lo, none, true, false⟩
        (Tok.num (String.mk (natDigits i.toNat))) =
        .ok ⟨lo, some ((i.toNat : Nat) : Int), true, false⟩ := by
      simp [processToken, parseNumberToken_natDigits, placeValue]
    rw [h2]
    have h3 : ((i.toNat : Nat) : Int) = i := by omega
    rw [h3]
    rfl

theorem foldlM_itemToks {it : Item} (hwf : wfItem it = true) :
    ∃ st, List.foldlM processToken initGroupState (itemToks it) = .ok st ∧
      resolveGroup st = .ok (some it) := by
  obtain ⟨lo, up⟩ := it
  cases lo with
  | none =>
    cases up with
    | none => cases hwf
    | some u =>
      refine ⟨⟨none, some u, true, false⟩, ?_, rfl⟩
      show List.foldlM processToken initGroupState
        (Tok.op (":") :: intToks u) = _
      rw [List.foldlM_cons]
      have h1 : processToken initGroupState (Tok.op (":")) =
          .ok ⟨none, none, true, false⟩ := rfl
      rw [h1]
      exact processToken_intToks_upper u none
  | some l =>
    cases up with
    | none =>
      refine ⟨⟨some l, none, true, false⟩, ?_, rfl⟩
      show List.foldlM processToken initGroupState
        (intToks l ++ [Tok.op (":")]) = _
      rw [List.foldlM_append, processToken_intToks_lower l]
      rfl
    | some u =>
      have hle : l ≤ u := by
        simp [wfItem] at hwf
        exact hwf
      by_cases heq : l = u
      · refine ⟨⟨some l, none, false, false⟩, ?_, ?_⟩
        · rw [show itemToks (some l, some u) =
            (if l = u then intToks l
             else intToks l ++ Tok.op (":") :: intToks u) from rfl, if_pos heq]
          exact processToken_intToks_lower l
        · rw [heq]
          rfl
      · refine ⟨⟨some l, some u, true, false⟩, ?_, ?_⟩
        · rw [show itemToks (some l, some u) =
            (if l = u then intToks l
             else intToks l ++ Tok.op (":") :: intToks u) from rfl, if_neg heq]
          rw [List.foldlM_append, processToken_intToks_lower l]
          show List.foldlM processToken ⟨some l, none, false, false⟩
            (Tok.op (":") :: intToks u) = _
          rw [List.foldlM_cons]
          have h1 : processToken ⟨some l, none, false, false⟩ (Tok.op (":")) =
              .ok ⟨some l, none, true, false⟩ := rfl
          rw [h1]
          exact processToken_intToks_upper u (some l)
        · show (if l > u then Except.error (RangeError.lowerGreaterThanUpper l u)
            else Except.ok (some (some l, some u))) = _
          rw [if_neg (by omega)]

theorem processGroup_itemToks {it : Item} (hwf : wfItem it = true)
    (acc : List Item) (hno : ∀ a ∈ acc, items_overlap a it = false) :
    processGroup acc (itemToks it) = .ok (acc ++ [it]) := by
  obtain ⟨st, hst, hres⟩ := foldlM_itemToks hwf
  rw [processGroup, hst]
  dsimp only
  rw [hres]
  exact appendChecked_of_no_overlap hno

theorem foldlM_processGroup_roundtrip : ∀ (rem acc : List Item),
    (∀ it ∈ acc ++ rem, wfItem it = true) →
    List.Pairwise (fun a b => items_overlap a b = false) (acc ++ rem) →
    List.foldlM processGroup acc (rem.map itemToks) = .ok (acc ++ rem) := by
  intro rem
  induction rem with
  | nil =>
    intro acc _ _
    simp only [List.map_nil, List.foldlM_nil, List.append_nil]
    rfl
  | cons it rem ih =>
    intro acc hwf hpw
    rw [List.map_cons, List.foldlM_cons]
    have hno : ∀ a ∈ acc, items_overlap a it = false := by
      intro a ha
      have := (List.pairwise_append.mp hpw).2.2 a ha it (by simp)
      exact this
    rw [processGroup_itemToks (hwf it (by simp)) acc hno]
    show List.foldlM processGroup (acc ++ [it]) (rem.map itemToks) = _
    have hassoc : acc ++ it :: rem = (acc ++ [it]) ++ rem := by simp
    rw [hassoc] at hwf hpw
    rw [ih (acc ++ [it]) hwf hpw, hassoc]

theorem compileText_renderChars {items : List Item}
    (hwf : ∀ it ∈ items, wfItem it = true)
    (hpw : List.Pairwise (fun a b => items_overlap a b = false) items)
    (hne : items ≠ []) :
    compileText (renderChars items) = .ok items := by
  rw [compileText, tokenize_renderChars hwf, splitGroups_tokensOfItems hne]
  have h0 : ([] : List Item) ++ items = items := by simp
  have hh := foldlM_processGroup_roundtrip items []
    (by rw [h0]; exact hwf) (by rw [h0]; exact hpw)
  rw [h0] at hh
  exact hh

/-- Claim C2, counterexample: the round trip fails for a Range built from
blank text.  Range("") succeeds with items = None, its canonical rendering
is "None", and recompiling "None" fails: the name token resolves against the
symbolic-name table, which holds only control-character mnemonics.  (Even
under a table that did contain "none", the recompiled range would restrict
to one single value instead of accepting everything.) -/
theorem render_recompile_counterexample :
    rangeFromText (some ("")) none = .ok ⟨none, none⟩ ∧
    Range.renderStr ⟨none, none⟩ = ("None") ∧
    rangeFromText (some ("None")) none =
      .error (.unknownSymbolicName ("None")) :=
  ⟨rfl, rfl, rfl⟩

/-- Claim C2, amended: for every Range constructed from text whose item list
is present and non-empty, recompiling the canonical rendering succeeds,
reproduces exactly the same item list, and therefore validates exactly like
the original range. -/
theorem render_recompile_roundtrip_items {text default : Option String}
    {r : Range} (h : rangeFromText text default = .ok r) {items : List Item}
    (hi : r.items = some items) (hne : items ≠ []) :
    rangeFromText (some r.renderStr) none =
      .ok ⟨some r.renderStr, some items⟩ ∧
    ∀ (name : String) (value : Int) (location : Option String),
      Range.validate ⟨some r.renderStr, some items⟩ name value location =
        r.validate name value location := by
  obtain ⟨hwf, hpw⟩ := rangeFromText_ok_inv h hi
  obtain ⟨d, o⟩ := r
  simp only at hi
  subst hi
  match items, hne, hwf, hpw with
  | it :: rest, _, hwf, hpw =>
    have hrs : (Range.mk d (some (it :: rest))).renderStr =
        String.mk (renderChars (it :: rest)) := rfl
    rw [hrs]
    constructor
    · rw [rangeFromText.eq_def]
      rw [if_neg (by simp [defaultIsBlank])]
      simp only [Option.map_some']
      have hrep : String.mk (replaceEllipsis
          (String.mk (renderChars (it :: rest))).data) =
          String.mk (renderChars (it :: rest)) := by
        rw [show (String.mk (renderChars (it :: rest))).data =
          renderChars (it :: rest) from rfl,
          replaceEllipsis_no_dot (renderChars_no_dot hwf)]
      rw [hrep]
      have hbl : ¬ (isBlank (String.mk (renderChars (it :: rest))) = true) := by
        rw [show isBlank (String.mk (renderChars (it :: rest))) =
          (renderChars (it :: rest)).all Char.isWhitespace from rfl,
          renderChars_not_blank (hwf it (by simp))]
        simp
      rw [if_neg hbl]
      rw [show replaceEllipsis (renderChars (it :: rest)) =
          renderChars (it :: rest) from
          replaceEllipsis_no_dot (renderChars_no_dot hwf),
        compileText_renderChars hwf hpw (by simp)]
      rfl
    · intro name value location
      rfl

/-- Witness for render_recompile_roundtrip_items at the text "1...5". -/
theorem render_recompile_roundtrip_items_witness :
    rangeFromText
        (some (Range.renderStr ⟨some ("1…5"), some [(some 1, some 5)]⟩))
        none =
      .ok ⟨some (Range.renderStr ⟨some ("1…5"), some [(some 1, some 5)]⟩),
        some [(some 1, some 5)]⟩ ∧
    Range.validate
        ⟨some (Range.renderStr ⟨some ("1…5"), some [(some 1, some 5)]⟩),
          some [(some 1, some 5)]⟩ ("x") 3 none =
      Range.validate ⟨some ("1…5"), some [(some 1, some 5)]⟩ ("x") 3 none := by
  have hh := @render_recompile_roundtrip_items (some ("1...5")) none
    ⟨some ("1…5"), some [(some 1, some 5)]⟩ rfl
    [(some 1, some 5)] rfl (by simp)
  exact ⟨hh.1, hh.2 ("x") 3 none⟩

end Cutplace
